import Mathlib

/-!
Verification of the selection and ranking pipeline of the code-digest
repository (walker, semantic analyzer context, prioritizer), as a shallow
embedding in Lean 4.

Modelling conventions:
* Rust `f32` priorities are modelled as exact rationals (`ℚ`) wherever the
  properties at issue concern finite values; for claims about non-finite
  floats the type `F32` (finite / NaN / ±infinity) models IEEE comparison.
* Rust `usize` token counts are modelled as `ℕ`; `would_exceed_limit` uses
  saturating addition in Rust, and for values representable in `usize` the
  comparison `saturating_add r c > m` agrees with the plain `ℕ` comparison
  `r + c > m`, which is how it is modelled here.
* Paths (`PathBuf`) are modelled as `String` with lexicographic order.
* `Vec` buffers indexed by position are modelled as functions `ℕ → ℚ`
  updated pointwise (all writes in the source are in bounds).
* Rust's stable `sort_by` is modelled by a stable insertion sort on the
  same comparator.
-/

/-- Three-way comparison on rationals (models `PartialOrd` on finite floats). -/
def qCmp (a b : ℚ) : Ordering :=
  if a < b then Ordering.lt else if b < a then Ordering.gt else Ordering.eq

/-- Three-way comparison on strings (models `Ord` on `PathBuf`). -/
def strCmp (a b : String) : Ordering :=
  if a < b then Ordering.lt else if b < a then Ordering.gt else Ordering.eq

/-- `o ≠ Ordering.gt`, as a Boolean: the "less or equal" reading of a
comparator, used to run a sort from a three-way comparison function. -/
def notGT : Ordering → Bool
  | Ordering.gt => false
  | _ => true

/-- Insert an element into a list so that it lands before the first element
`b` with `le a b`; the insertion step of a stable insertion sort. -/
def insertOrd (le : α → α → Bool) (a : α) : List α → List α
  | [] => [a]
  | b :: l => if le a b then a :: b :: l else b :: insertOrd le a l

/-- Stable insertion sort by a Boolean "less or equal" test; models Rust's
stable `sort_by` (for a total comparator both produce the unique stable
sorted permutation). -/
def sortOrd (le : α → α → Bool) : List α → List α
  | [] => []
  | a :: l => insertOrd le a (sortOrd le l)

/-- The fields of `FileInfo` (src/core/walker.rs) that the prioritizer
reads: identity path, relative path, priority and resolved imports. -/
structure PFile where
  path : String
  relative_path : String
  priority : ℚ
  imports : List String
deriving DecidableEq, Repr

/-- `FileWithTokens` (src/core/prioritizer.rs): a file with its
pre-computed token count. -/
structure FileWithTokens where
  file : PFile
  token_count : ℕ
deriving DecidableEq, Repr

/-- Modelled from the spec (§4.7): `would_exceed_limit(current, addition, max)`
from src/core/token.rs (not present under src/) returns true iff
`current + addition > max` under saturating addition; over `ℕ` with values
in `usize` range this is exactly `max < current + addition`. -/
def would_exceed_limit (current addition max : ℕ) : Bool :=
  decide (max < current + addition)

/-- The selection loop of `prioritize_files` (src/core/prioritizer.rs,
lines 102-116): scan sorted candidates, skip a file whose addition would
exceed the limit and keep scanning, otherwise admit it and accumulate. -/
def selectLoop (max_tokens : ℕ) : ℕ → List FileWithTokens → List FileWithTokens
  | _, [] => []
  | total_tokens, f :: rest =>
    if would_exceed_limit total_tokens f.token_count max_tokens then
      selectLoop max_tokens total_tokens rest
    else
      f :: selectLoop max_tokens (total_tokens + f.token_count) rest

/-- The sort key of `prioritize_files` on counted files: priority
descending (`b.priority.partial_cmp(&a.priority)`), then relative path
ascending. On finite priorities `partial_cmp` never returns `None`. -/
def fileCmpQ (a b : FileWithTokens) : Ordering :=
  (qCmp b.file.priority a.file.priority).then
    (strCmp a.file.relative_path b.file.relative_path)

/-- The budgeted branch of `prioritize_files` after token counting:
sort candidates by (priority desc, relative path asc), then run the
selection loop starting from the structure overhead. -/
def prioritize_files_budget (max_tokens overhead : ℕ)
    (candidates : List FileWithTokens) : List FileWithTokens :=
  selectLoop max_tokens overhead (sortOrd (fun a b => notGT (fileCmpQ a b)) candidates)

/-- The options of `calculate_structure_overhead` (`ContextOptions`). -/
structure ContextOptions where
  max_tokens : Option ℕ
  include_stats : Bool
  include_tree : Bool
  include_toc : Bool
  doc_header_template : String

/-- `calculate_structure_overhead` (src/core/prioritizer.rs, lines 133-173).
Modelled from the spec for the token counter: `tc` is the abstract
deterministic `count_tokens` of src/core/token.rs (not present under src/);
the overhead formula itself (header, stats estimate plus 200 buffer,
tree headers plus 20 tokens per file, one TOC line per file) follows the
source. -/
def calculate_structure_overhead (tc : String → ℕ) (options : ContextOptions)
    (files : List PFile) : ℕ :=
  let header_part :=
    if options.doc_header_template ≠ "" then
      tc (options.doc_header_template.replace "{directory}" "." ++ "\n\n")
    else 0
  let stats_part :=
    if options.include_stats then
      tc ("## Statistics\n\n- Total files: " ++ toString files.length ++
          "\n- Total size: X bytes\n\n### Files by type:\n") + 200
    else 0
  let tree_part :=
    if options.include_tree then
      tc "## File Structure\n\n```\n" + files.length * 20 + tc "```\n\n"
    else 0
  let toc_part :=
    if options.include_toc then
      tc "## Table of Contents\n\n" +
        (files.map (fun f => tc ("- [" ++ f.relative_path ++ "](#anchor)\n"))).sum +
        tc "\n"
    else 0
  header_part + stats_part + tree_part + toc_part

/-- Loop body of building `path_to_index` (src/core/prioritizer.rs,
lines 215-218): a `HashMap` insert per enumerated file, where a later
insert for the same path overwrites an earlier one. -/
def pathToIndexGo (p : String) : List PFile → ℕ → Option ℕ → Option ℕ
  | [], _, acc => acc
  | f :: rest, i, acc =>
    pathToIndexGo p rest (i + 1) (if f.path = p then some i else acc)

/-- Lookup in the `path_to_index` map of `adjust_priorities_for_dependencies`:
the index of the last file with the given path, if any. -/
def pathToIndex (files : List PFile) (p : String) : Option ℕ :=
  pathToIndexGo p files 0 none

/-- One import of one importer (src/core/prioritizer.rs, lines 229-234):
if the imported path is present in the working set, add 20% of the
importer's priority to that file's boost cell. -/
def boostImportsStep (files : List PFile) (importer_priority : ℚ)
    (bs : ℕ → ℚ) (imported_path : String) : ℕ → ℚ :=
  match pathToIndex files imported_path with
  | some idx => Function.update bs idx (bs idx + importer_priority * (1/5))
  | none => bs

/-- One importer (src/core/prioritizer.rs, lines 223-236): files with an
empty `imports` list contribute nothing. -/
def boostFileStep (files : List PFile) (boosts : ℕ → ℚ) (f : PFile) : ℕ → ℚ :=
  if f.imports.isEmpty then boosts
  else f.imports.foldl (boostImportsStep files f.priority) boosts

/-- The `priority_boosts` vector of `adjust_priorities_for_dependencies`
(src/core/prioritizer.rs, lines 220-236), modelled as a function from index
to boost (the vector of zeroes updated pointwise; all writes are in
bounds). -/
def computeBoosts (files : List PFile) : ℕ → ℚ :=
  files.foldl (boostFileStep files) (fun _ => 0)

/-- `adjust_priorities_for_dependencies` (src/core/prioritizer.rs,
lines 211-246): compute all boosts from the pre-adjustment priorities, then
apply each strictly positive boost and clamp the boosted priority at 5.0. -/
def adjust_priorities_for_dependencies (files : List PFile) : List PFile :=
  let boosts := computeBoosts files
  files.enum.map (fun x =>
    if 0 < boosts x.1 then
      { x.2 with priority := min (x.2.priority + boosts x.1) 5 }
    else x.2)

/-- Claim-side description of the total boost a path receives: the sum over
all files `F` of (number of occurrences of the path in `F.imports`) times
20% of `F`'s pre-adjustment priority. -/
def totalBoost (files : List PFile) (p : String) : ℚ :=
  (files.map (fun F =>
    ((F.imports.countP (fun imp => decide (imp = p)) : ℕ) : ℚ) *
      (F.priority * (1/5)))).sum

/-- First index of a file with the given path, claim-side helper. -/
def firstIdx (p : String) : List PFile → Option ℕ
  | [] => none
  | f :: l => if f.path = p then some 0 else (firstIdx p l).map (· + 1)

/-- The files of scenario S3: `main.rs` (priority 2.0, imports `lib.rs` and
`utils.rs`), `lib.rs` (1.0), `utils.rs` (0.8), `unused.rs` (0.5). -/
def s3files : List PFile :=
  [⟨"main.rs", "main.rs", 2, ["lib.rs", "utils.rs"]⟩,
   ⟨"lib.rs", "lib.rs", 1, []⟩,
   ⟨"utils.rs", "utils.rs", (4/5 : ℚ), []⟩,
   ⟨"unused.rs", "unused.rs", (1/2 : ℚ), []⟩]

/-- The four S4 candidates: token costs [300, 400, 500, 100] in strictly
descending priority order. -/
def c6files : List FileWithTokens :=
  [⟨⟨"a", "a", 4, []⟩, 300⟩,
   ⟨⟨"b", "b", 3, []⟩, 400⟩,
   ⟨⟨"c", "c", 2, []⟩, 500⟩,
   ⟨⟨"d", "d", 1, []⟩, 100⟩]

/-- Character-list prefix test (Boolean). -/
def isPrefixOfCh : List Char → List Char → Bool
  | [], _ => true
  | _ :: _, [] => false
  | a :: l, b :: m => a == b && isPrefixOfCh l m

/-- Character-list substring test (Boolean); models Rust `str::contains`
for a string pattern. -/
def isInfixOfCh (pat : List Char) : List Char → Bool
  | [] => isPrefixOfCh pat []
  | c :: t => isPrefixOfCh pat (c :: t) || isInfixOfCh pat t

/-- ASCII lowercasing; models Rust `str::to_lowercase` on the ASCII paths
at issue (the Unicode cases do not affect the properties proved here). -/
def toLowerAscii (s : String) : String := ⟨s.data.map Char.toLower⟩

/-- `s.contains(pat)` for strings. -/
def containsSub (s pat : String) : Bool := isInfixOfCh pat.toList s.toList

/-- `relative_path.parent().is_none() || parent == Some("")`: a relative
path with no separator sits at the traversal root. -/
def parentIsRoot (p : String) : Bool := !(p.toList.contains '/')

/-- The file-type tags of `FileType` (src/utils/file_ext.rs). -/
inductive FileType where
  | rust | python | javascript | typescript | go | java | cpp | c | csharp
  | ruby | php | swift | kotlin | scala | haskell | dart | lua | r | julia
  | elixir | elm | markdown | json | yaml | toml | xml | html | css | text
  | other
deriving DecidableEq, Repr

/-- `CompiledPriority` (src/core/walker.rs, lines 26-33): a compiled glob
matcher (modelled as its matching function on relative paths), a signed
weight and the original pattern string. -/
structure CompiledPriority where
  matcher : String → Bool
  weight : ℚ
  original_pattern : String

/-- `calculate_base_priority` (src/core/walker.rs, lines 528-586): base
score from the closed file-type table, multiplied by the lowercased-path
heuristics, root-config boost, and finally capped at 2.0. -/
def calculate_base_priority (file_type : FileType) (relative_path : String) : ℚ :=
  let score : ℚ :=
    match file_type with
    | .rust => 1
    | .python => 9/10
    | .javascript => 9/10
    | .typescript => 19/20
    | .go => 9/10
    | .java => 17/20
    | .cpp => 17/20
    | .c => 4/5
    | .csharp => 17/20
    | .ruby => 4/5
    | .php => 3/4
    | .swift => 17/20
    | .kotlin => 17/20
    | .scala => 4/5
    | .haskell => 3/4
    | .dart => 17/20
    | .lua => 7/10
    | .r => 3/4
    | .julia => 4/5
    | .elixir => 4/5
    | .elm => 3/4
    | .markdown => 3/5
    | .json => 1/2
    | .yaml => 1/2
    | .toml => 1/2
    | .xml => 2/5
    | .html => 2/5
    | .css => 2/5
    | .text => 3/10
    | .other => 1/5
  let path_str := toLowerAscii relative_path
  let score :=
    if containsSub path_str "main" || containsSub path_str "index" then
      score * (3/2) else score
  let score :=
    if containsSub path_str "lib" || containsSub path_str "src" then
      score * (6/5) else score
  let score :=
    if containsSub path_str "test" || containsSub path_str "spec" then
      score * (4/5) else score
  let score :=
    if containsSub path_str "example" || containsSub path_str "sample" then
      score * (7/10) else score
  let score :=
    if parentIsRoot relative_path then
      match file_type with
      | .toml | .yaml | .json => score * (13/10)
      | _ => score
    else score
  min score 2

/-- `calculate_priority` (src/core/walker.rs, lines 508-525): base score,
then the first matching custom-priority rule applied additively (no further
cap); no match returns the base score. -/
def calculate_priority (file_type : FileType) (relative_path : String)
    (custom_priorities : List CompiledPriority) : ℚ :=
  let base_score := calculate_base_priority file_type relative_path
  match custom_priorities.find? (fun pr => pr.matcher relative_path) with
  | some pr => base_score + pr.weight
  | none => base_score

/-- Decidable equality for `Except`, used to evaluate the embedded
fallible functions at concrete inputs. -/
instance {e a : Type} [DecidableEq e] [DecidableEq a] : DecidableEq (Except e a) :=
  fun x y =>
    match x, y with
    | Except.ok v, Except.ok w =>
      match decEq v w with
      | isTrue h => isTrue (by rw [h])
      | isFalse h => isFalse (fun hh => h (Except.ok.inj hh))
    | Except.error v, Except.error w =>
      match decEq v w with
      | isTrue h => isTrue (by rw [h])
      | isFalse h => isFalse (fun hh => h (Except.error.inj hh))
    | Except.ok _, Except.error _ => isFalse (fun hh => Except.noConfusion hh)
    | Except.error _, Except.ok _ => isFalse (fun hh => Except.noConfusion hh)

/-- UTF-8 byte length of a string; models Rust `str::len()` (`pattern.len()`). -/
def utf8Len (s : String) : ℕ := (s.data.map Char.utf8Size).sum

/-- Rust `char::is_control`: the Unicode Cc category, U+0000..U+001F and
U+007F..U+009F. -/
def isRustControl (c : Char) : Bool :=
  c.toNat < 0x20 || (0x7F ≤ c.toNat && c.toNat ≤ 0x9F)

/-- `pattern.contains("..")`: two adjacent dots in the character list. -/
def hasDotDot : List Char → Bool
  | [] => false
  | [_] => false
  | a :: b :: rest => (a == '.' && b == '.') || hasDotDot (b :: rest)

/-- Rust `str::starts_with(c)` for a single character. -/
def startsWithCh (s : String) (c : Char) : Bool :=
  match s.data with
  | [] => false
  | a :: _ => a == c

/-- `sanitize_pattern` (src/core/walker.rs, lines 257-298): reject patterns
longer than 1000 bytes; patterns with a null byte, a control character,
U+2028, U+2029 or U+FEFF; patterns starting with `/` or `\`; and patterns
containing `..`; accept everything else unchanged. The error value is the
message text of the `InvalidConfiguration` error the source constructs. -/
def sanitize_pattern (pattern : String) : Except String String :=
  if utf8Len pattern > 1000 then
    Except.error "Pattern too long (max 1000 characters)"
  else if pattern.data.contains '\x00' ||
      pattern.data.any (fun c =>
        isRustControl c || c == ' ' || c == ' ' || c == '﻿') then
    Except.error "Pattern contains invalid characters (null bytes or control characters)"
  else if startsWithCh pattern '/' || startsWithCh pattern '\\' then
    Except.error "Absolute paths not allowed in patterns"
  else if hasDotDot pattern.data then
    Except.error "Directory traversal (..) not allowed in patterns"
  else Except.ok pattern

/-- Claim-side rejection predicate, following the claim's own wording:
length > 1000, a null byte, a control character, U+2028, U+2029 or U+FEFF,
a leading `/` or `\`, or the substring `..` (expressed here as an infix
occurrence of the two-character list). -/
def badPatternSpec (p : String) : Bool :=
  decide (utf8Len p > 1000) ||
  p.data.contains '\x00' ||
  p.data.any isRustControl ||
  p.data.contains ' ' ||
  p.data.contains ' ' ||
  p.data.contains '﻿' ||
  startsWithCh p '/' ||
  startsWithCh p '\\' ||
  isInfixOfCh ['.', '.'] p.data

/-- One per-entry outcome of the parallel walk (src/core/walker.rs,
lines 409-421): either `process_file`'s `Ok(Option<FileInfo>)`, or a
`FileProcessingError` carrying its display message. -/
inductive WalkEntryResult where
  | ok (f : Option PFile)
  | err (msg : String)

/-- The error half of `partition_result` in `walk_parallel`. -/
def walkErrors (results : List WalkEntryResult) : List String :=
  results.filterMap (fun r =>
    match r with
    | .err m => some m
    | .ok _ => none)

/-- The success half of `partition_result`, flattened (`Option` results of
skipped files removed), as returned on the success path. -/
def walkOkFiles (results : List WalkEntryResult) : List PFile :=
  (results.filterMap (fun r =>
    match r with
    | .ok f => some f
    | .err _ => none)).filterMap id

/-- The critical-error classification of `walk_parallel` (src/core/walker.rs,
lines 428-433): an error message containing "Permission denied" or
"Invalid". -/
def isCriticalMsg (m : String) : Bool :=
  isInfixOfCh ("Permission denied".data) m.data ||
    isInfixOfCh ("Invalid".data) m.data

/-- `walk_parallel` (src/core/walker.rs, lines 396-455) after the parallel
map has produced its per-entry results: if any error is critical, fail with
the aggregate of all critical messages; otherwise log-and-drop the failures
and return the successfully processed files. -/
def walk_parallel (results : List WalkEntryResult) : Except String (List PFile) :=
  let errors := walkErrors results
  if errors.isEmpty then Except.ok (walkOkFiles results)
  else
    let critical := errors.filter isCriticalMsg
    if critical.isEmpty then Except.ok (walkOkFiles results)
    else
      Except.error ("Critical file processing errors encountered: " ++
        String.intercalate ", " critical)

/-- `SemanticContext` (src/core/semantic/analyzer.rs, lines 12-23): a stack
frame for dependency traversal. -/
structure SemanticContext where
  current_file : String
  base_dir : String
  current_depth : ℕ
  max_depth : ℕ
  visited_files : Finset String
deriving DecidableEq

/-- `SemanticContext::new` (analyzer.rs, lines 27-35): depth 0, empty
visited set (the seed file itself is not inserted). -/
def SemanticContext.new (current_file base_dir : String) (max_depth : ℕ) :
    SemanticContext :=
  ⟨current_file, base_dir, 0, max_depth, ∅⟩

/-- `SemanticContext::at_max_depth` (analyzer.rs, lines 38-40). -/
def SemanticContext.at_max_depth (c : SemanticContext) : Bool :=
  decide (c.current_depth ≥ c.max_depth)

/-- `SemanticContext::child_context` (analyzer.rs, lines 43-53): `None` at
max depth or for an already-visited target; otherwise a clone with the
target as current file, depth + 1, and the target inserted into the
visited set. -/
def SemanticContext.child_context (c : SemanticContext) (file : String) :
    Option SemanticContext :=
  if c.at_max_depth || decide (file ∈ c.visited_files) then none
  else
    some { c with
      current_file := file
      current_depth := c.current_depth + 1
      visited_files := insert file c.visited_files }

/-- A chain of `child_context` derivations from a fresh seed context, one
derivation per target in order; the contexts reachable from the seed are
exactly the `some` results of such chains. -/
def chainContext (seed base_dir : String) (max_depth : ℕ)
    (targets : List String) : Option SemanticContext :=
  targets.foldl (fun oc file => oc.bind (fun c => c.child_context file))
    (some (SemanticContext.new seed base_dir max_depth))

/-- The value domain of an `f32` priority for comparison purposes: a finite
value (exact rational), NaN, or an infinity. -/
inductive F32 where
  | nan
  | negInf
  | finite (val : ℚ)
  | posInf
deriving DecidableEq, Repr

/-- Rust `f32::partial_cmp` (IEEE 754 comparison): `None` whenever either
side is NaN; infinities compare totally; finite values compare as numbers. -/
def F32.pcmp : F32 → F32 → Option Ordering
  | .nan, _ => none
  | _, .nan => none
  | .negInf, .negInf => some Ordering.eq
  | .negInf, _ => some Ordering.lt
  | _, .negInf => some Ordering.gt
  | .posInf, .posInf => some Ordering.eq
  | .posInf, _ => some Ordering.gt
  | _, .posInf => some Ordering.lt
  | .finite a, .finite b => some (qCmp a b)

/-- A `FileInfo` as the sort comparator of `prioritize_files` sees it:
the full `f32` priority domain and the relative path. -/
structure FileR where
  priority : F32
  relative_path : String
deriving DecidableEq, Repr

/-- The comparator of `prioritize_files` (src/core/prioritizer.rs,
lines 32-39 and 93-100): `b.priority.partial_cmp(&a.priority)
.unwrap_or(Equal).then_with(|| a.relative_path.cmp(&b.relative_path))`. -/
def fileCmpR (a b : FileR) : Ordering :=
  ((F32.pcmp b.priority a.priority).getD Ordering.eq).then
    (strCmp a.relative_path b.relative_path)

/-- The sort of `prioritize_files` over the full priority domain. -/
def sortFilesR (files : List FileR) : List FileR :=
  sortOrd (fun a b => notGT (fileCmpR a b)) files

/-- Modelled from the claim's words, for comparison with the source: a
comparator in which "non-finite priorities compare as equal and fall
through to the path tie-break". -/
def specNonfiniteEqCmp (a b : FileR) : Ordering :=
  (match b.priority, a.priority with
   | F32.finite x, F32.finite y => qCmp x y
   | _, _ => Ordering.eq).then
    (strCmp a.relative_path b.relative_path)

/-- The sort the claim's words describe. -/
def specSortFilesR (files : List FileR) : List FileR :=
  sortOrd (fun a b => notGT (specNonfiniteEqCmp a b)) files

/-- The pairwise ordering property claimed for the output: strictly greater
priority first, ties broken by strictly smaller relative path. -/
def claimPairRel (a b : FileR) : Prop :=
  F32.pcmp a.priority b.priority = some Ordering.gt ∨
    (a.priority = b.priority ∧ a.relative_path < b.relative_path)

/-- Invariant of the selection loop: if the running total is within the
budget, it stays within the budget, and the sum of admitted token counts
on top of the starting total never exceeds the budget. -/
theorem selectLoop_sum_le (max_tokens : ℕ) :
    ∀ (l : List FileWithTokens) (total : ℕ), total ≤ max_tokens →
      total + ((selectLoop max_tokens total l).map (fun f => f.token_count)).sum ≤ max_tokens := by
  intro l
  induction l with
  | nil => intro total h; simpa [selectLoop] using h
  | cons f rest ih =>
    intro total h
    cases hx : would_exceed_limit total f.token_count max_tokens with
    | true => simpa [selectLoop, hx] using ih total h
    | false =>
      have hx' : decide (max_tokens < total + f.token_count) = false := hx
      have hlt := of_decide_eq_false hx'
      have hfit : total + f.token_count ≤ max_tokens := by omega
      have h3 := ih (total + f.token_count) hfit
      simp only [selectLoop, hx, Bool.false_eq_true, if_false, List.map_cons, List.sum_cons]
      omega

/-- Claim C1 (amended): for every run of the budgeted selection whose
structure overhead `O` does not already exceed the budget `B`, the admitted
sequence `S` satisfies `O + Σ tokens(f) ≤ B`. (When `O > B` nothing is
admitted and `O + 0 > B`, so the unconditional claim fails; see the
counterexample.) -/
theorem c1_budget_sum_bounded (max_tokens overhead : ℕ)
    (candidates : List FileWithTokens) (h : overhead ≤ max_tokens) :
    overhead +
      ((prioritize_files_budget max_tokens overhead candidates).map
        (fun f => f.token_count)).sum ≤ max_tokens := by
  exact selectLoop_sum_le max_tokens _ overhead h

/-- Witness for C1: with budget 1000, overhead 200 and a single candidate
costing 300 tokens, the admitted sum plus overhead is within the budget. -/
theorem c1_budget_sum_bounded_witness :
    (200 : ℕ) ≤ 1000 ∧
      200 + ((prioritize_files_budget 1000 200
        [⟨⟨"a", "a", 1, []⟩, 300⟩]).map (fun f => f.token_count)).sum ≤ 1000 :=
  ⟨by decide, c1_budget_sum_bounded 1000 200 [⟨⟨"a", "a", 1, []⟩, 300⟩] (by decide)⟩

/-- Claim C1 counterexample: a run with `include_stats` on and a zero token
counter has structure overhead 200 (the source adds a flat 200-token buffer);
with budget 100 the selection admits nothing and `O + Σ = 200 > 100`,
refuting the unconditional claim `O + Σ tokens(f) ≤ B`. -/
theorem c1_overhead_exceeds_budget_cex :
    calculate_structure_overhead (fun _ => 0)
        ⟨some 100, true, false, false, ""⟩ [] = 200 ∧
      prioritize_files_budget 100 200 [⟨⟨"a", "a", 1, []⟩, 50⟩] = [] ∧
      ¬ (200 + (([] : List FileWithTokens).map (fun f => f.token_count)).sum ≤ 100) := by
  refine ⟨by decide, by decide, by decide⟩

theorem pathToIndexGo_no_match (p : String) :
    ∀ (l : List PFile), (∀ g ∈ l, g.path ≠ p) →
      ∀ (i : ℕ) (acc : Option ℕ), pathToIndexGo p l i acc = acc := by
  intro l
  induction l with
  | nil => intro _ i acc; rfl
  | cons f rest ih =>
    intro h i acc
    have hf : f.path ≠ p := h f (List.mem_cons_self f rest)
    simp only [pathToIndexGo, if_neg hf]
    exact ih (fun g hg => h g (List.mem_cons_of_mem f hg)) (i + 1) acc

theorem pathToIndexGo_eq_firstIdx (p : String) :
    ∀ (l : List PFile), l.Pairwise (fun a b => a.path ≠ b.path) →
      ∀ (i : ℕ), pathToIndexGo p l i none = (firstIdx p l).map (· + i) := by
  intro l
  induction l with
  | nil => intro _ i; rfl
  | cons f rest ih =>
    intro hp i
    rcases List.pairwise_cons.mp hp with ⟨hf, hrest⟩
    by_cases hfp : f.path = p
    · have hnone : ∀ g ∈ rest, g.path ≠ p := by
        intro g hg
        have := hf g hg
        rw [hfp] at this
        exact fun hgp => this hgp.symm
      simp only [pathToIndexGo, if_pos hfp, firstIdx, if_pos hfp]
      rw [pathToIndexGo_no_match p rest hnone]
      simp
    · simp only [pathToIndexGo, if_neg hfp, firstIdx, if_neg hfp]
      rw [ih hrest (i + 1), Option.map_map]
      rcases firstIdx p rest with _ | k
      · rfl
      · simp [Function.comp]
        omega

theorem firstIdx_iff (p : String) :
    ∀ (l : List PFile), l.Pairwise (fun a b => a.path ≠ b.path) →
      ∀ (j : ℕ), (firstIdx p l = some j ↔
        ∃ h : j < l.length, (l.get ⟨j, h⟩).path = p) := by
  intro l
  induction l with
  | nil => intro _ j; simp [firstIdx]
  | cons f rest ih =>
    intro hp j
    rcases List.pairwise_cons.mp hp with ⟨hf, hrest⟩
    by_cases hfp : f.path = p
    · simp only [firstIdx, if_pos hfp]
      cases j with
      | zero => simp [hfp]
      | succ k =>
        simp only [List.length_cons, List.get_cons_succ]
        constructor
        · intro h; exact absurd (Option.some.inj h) (by omega)
        · rintro ⟨h, hpath⟩
          have hmem : rest.get ⟨k, by omega⟩ ∈ rest := List.get_mem rest k (by omega)
          exact absurd hpath (by have := hf _ hmem; rw [hfp] at this
                                 exact fun hh => this hh.symm)
    · simp only [firstIdx, if_neg hfp]
      cases j with
      | zero =>
        simp only [List.length_cons, List.get_cons_zero]
        constructor
        · intro h
          rcases Option.map_eq_some'.mp h with ⟨k, _, hk⟩
          omega
        · rintro ⟨_, hpath⟩; exact absurd hpath hfp
      | succ k =>
        simp only [List.length_cons, List.get_cons_succ]
        constructor
        · intro h
          rcases Option.map_eq_some'.mp h with ⟨m, hm, hmk⟩
          have hmk' : m = k := by omega
          subst hmk'
          rcases (ih hrest m).mp hm with ⟨hlt, hpath⟩
          exact ⟨by omega, hpath⟩
        · rintro ⟨hlt, hpath⟩
          have hk : firstIdx p rest = some k :=
            (ih hrest k).mpr ⟨by omega, hpath⟩
          rw [hk]; rfl

theorem pathToIndex_iff (files : List PFile)
    (hd : files.Pairwise (fun a b => a.path ≠ b.path)) (p : String) (j : ℕ) :
    pathToIndex files p = some j ↔
      ∃ h : j < files.length, (files.get ⟨j, h⟩).path = p := by
  rw [pathToIndex, pathToIndexGo_eq_firstIdx p files hd 0]
  rw [← firstIdx_iff p files hd j]
  have hmap : (firstIdx p files).map (· + 0) = firstIdx p files := by
    cases firstIdx p files <;> simp
  rw [hmap]

theorem boostImportsStep_fold_apply (files : List PFile) (pri : ℚ) :
    ∀ (imports : List String) (bs : ℕ → ℚ) (j : ℕ),
      (imports.foldl (boostImportsStep files pri) bs) j =
        bs j + ((imports.countP
          (fun imp => decide (pathToIndex files imp = some j)) : ℕ) : ℚ) *
            (pri * (1/5)) := by
  intro imports
  induction imports with
  | nil => intro bs j; simp
  | cons imp rest ih =>
    intro bs j
    simp only [List.foldl_cons, ih, List.countP_cons]
    have hstep : (boostImportsStep files pri bs imp) j =
        bs j + (if decide (pathToIndex files imp = some j) then (1 : ℚ) else 0) *
          (pri * (1/5)) := by
      rcases hpti : pathToIndex files imp with _ | idx
      · simp [boostImportsStep, hpti]
      · by_cases hj : j = idx
        · subst hj
          simp [boostImportsStep, hpti, Function.update_apply]
        · have hne : ¬ (some idx = some j) := fun h => hj (Option.some.inj h).symm
          simp [boostImportsStep, hpti, Function.update_apply, hj, hne]
    rw [hstep]
    push_cast
    by_cases hdec : pathToIndex files imp = some j
    · simp [hdec]; ring
    · simp [hdec]

theorem computeBoosts_fold_apply (files : List PFile) :
    ∀ (l : List PFile) (bs : ℕ → ℚ) (j : ℕ),
      (l.foldl (boostFileStep files) bs) j =
        bs j + (l.map (fun F =>
          ((F.imports.countP
            (fun imp => decide (pathToIndex files imp = some j)) : ℕ) : ℚ) *
              (F.priority * (1/5)))).sum := by
  intro l
  induction l with
  | nil => intro bs j; simp
  | cons F rest ih =>
    intro bs j
    simp only [List.foldl_cons, ih, List.map_cons, List.sum_cons]
    have hstep : (boostFileStep files bs F) j =
        bs j + ((F.imports.countP
          (fun imp => decide (pathToIndex files imp = some j)) : ℕ) : ℚ) *
            (F.priority * (1/5)) := by
      unfold boostFileStep
      by_cases he : F.imports.isEmpty
      · rw [if_pos he]
        have : F.imports = [] := List.isEmpty_iff.mp he
        simp [this]
      · rw [if_neg he]
        exact boostImportsStep_fold_apply files F.priority F.imports bs j
    rw [hstep]
    ring

theorem computeBoosts_eq_totalBoost (files : List PFile)
    (hd : files.Pairwise (fun a b => a.path ≠ b.path))
    (j : ℕ) (hj : j < files.length) :
    computeBoosts files j = totalBoost files ((files.get ⟨j, hj⟩).path) := by
  rw [computeBoosts, computeBoosts_fold_apply files files (fun _ => 0) j]
  rw [totalBoost]
  simp only [zero_add]
  apply congrArg List.sum
  apply List.map_congr_left
  intro F _
  have hc : F.imports.countP (fun imp => decide (pathToIndex files imp = some j)) =
      F.imports.countP (fun imp => decide (imp = (files.get ⟨j, hj⟩).path)) := by
    apply List.countP_congr
    intro imp _
    have hiff : (pathToIndex files imp = some j) ↔
        (imp = (files.get ⟨j, hj⟩).path) := by
      rw [pathToIndex_iff files hd imp j]
      constructor
      · rintro ⟨h, hp⟩; exact hp.symm
      · intro h; exact ⟨hj, h.symm⟩
    simpa using hiff
  rw [hc]

/-- Claim C3 (amended): for files with pairwise distinct paths, phase A
gives the file at index `i` the total boost `Σ 0.2·priority(F)·(occurrences
of its path in F.imports)` computed from pre-adjustment priorities — applied
only when strictly positive, and clamped at 5.0 (the unamended claim omits
the positivity guard and the clamp; see the counterexample); files imported
by nobody keep their priority. In particular scenario S3 yields priorities
2.0, 1.4, 1.2, 0.5. -/
theorem c3_dependency_boost_formula :
    (∀ (files : List PFile), files.Pairwise (fun a b => a.path ≠ b.path) →
      ∀ (i : ℕ) (h : i < files.length)
        (h2 : i < (adjust_priorities_for_dependencies files).length),
        ((adjust_priorities_for_dependencies files).get ⟨i, h2⟩).priority =
          (if 0 < totalBoost files ((files.get ⟨i, h⟩).path) then
            min ((files.get ⟨i, h⟩).priority +
              totalBoost files ((files.get ⟨i, h⟩).path)) 5
          else (files.get ⟨i, h⟩).priority)) ∧
    (adjust_priorities_for_dependencies s3files).map (fun f => f.priority) =
      [2, (7/5 : ℚ), (6/5 : ℚ), (1/2 : ℚ)] := by
  constructor
  · intro files hd i h h2
    have hlen : (adjust_priorities_for_dependencies files).length = files.length := by
      simp [adjust_priorities_for_dependencies, List.enum_length]
    simp only [adjust_priorities_for_dependencies, List.get_eq_getElem,
      List.getElem_map, List.getElem_enum]
    rw [computeBoosts_eq_totalBoost files hd i h]
    by_cases hb : 0 < totalBoost files ((files.get ⟨i, h⟩).path)
    · simp only [List.get_eq_getElem] at hb ⊢
      rw [if_pos hb, if_pos hb]
    · simp only [List.get_eq_getElem] at hb ⊢
      rw [if_neg hb, if_neg hb]
  · simp [adjust_priorities_for_dependencies, computeBoosts, boostFileStep,
      boostImportsStep, pathToIndex, pathToIndexGo, List.enum, List.enumFrom,
      Function.update_apply, s3files]
    norm_num

/-- Witness for C3: applying the amended formula to scenario S3 at index 1
(`lib.rs`) yields priority 1.4. -/
theorem c3_dependency_boost_formula_witness :
    ((adjust_priorities_for_dependencies s3files).get
      ⟨1, by decide⟩).priority = (7/5 : ℚ) := by
  rw [c3_dependency_boost_formula.1 s3files (by decide) 1 (by decide) (by decide)]
  simp [s3files, totalBoost]
  norm_num

/-- Claim C3 counterexample: `main.rs` (priority 30) imports `lib.rs`
(priority 1). The claim predicts `lib.rs` rises by 0.2 × 30 = 6 to 7.0, but
the code clamps the boosted priority at 5.0. -/
theorem c3_boost_clamped_cex :
    (adjust_priorities_for_dependencies
        [⟨"main.rs", "main.rs", 30, ["lib.rs"]⟩,
         ⟨"lib.rs", "lib.rs", 1, []⟩]).map (fun f => f.priority) = [30, 5] ∧
      ((1 : ℚ) + 30 * (1/5)) ≠ 5 := by
  constructor
  · simp [adjust_priorities_for_dependencies, computeBoosts, boostFileStep,
      boostImportsStep, pathToIndex, pathToIndexGo, List.enum, List.enumFrom,
      Function.update_apply]
    norm_num
  · norm_num

/-- Claim C4 (amended): every file whose priority phase A boosts ends at
priority ≤ 5.0; files receiving no positive boost keep their input priority,
so whenever every input priority is ≤ 5.0, every output priority is ≤ 5.0
(the unamended "for every input file list" fails: an unboosted file keeps a
priority above 5.0; see the counterexample). -/
theorem c4_priority_le_five (files : List PFile)
    (h : ∀ f ∈ files, f.priority ≤ 5) :
    ∀ g ∈ adjust_priorities_for_dependencies files, g.priority ≤ 5 := by
  intro g hg
  simp only [adjust_priorities_for_dependencies, List.mem_map] at hg
  rcases hg with ⟨x, hx, hgx⟩
  obtain ⟨i, hi, hix⟩ := List.exists_mem_enum.mp ⟨x, hx, (rfl : x = x)⟩
  subst hgx
  cases hix
  dsimp only
  by_cases hb : 0 < computeBoosts files i
  · simp only [if_pos hb]
    exact min_le_right _ _
  · simp only [if_neg hb]
    exact h _ (List.getElem_mem hi)

/-- Witness for C4: a self-importing file of priority 3 is boosted to 3.6,
which is ≤ 5. -/
theorem c4_priority_le_five_witness :
    adjust_priorities_for_dependencies [⟨"a", "a", 3, ["a"]⟩] =
        [⟨"a", "a", (18/5 : ℚ), ["a"]⟩] ∧
      (⟨"a", "a", (18/5 : ℚ), ["a"]⟩ : PFile).priority ≤ 5 :=
  ⟨by
    simp [adjust_priorities_for_dependencies, computeBoosts, boostFileStep,
      boostImportsStep, pathToIndex, pathToIndexGo, List.enum, List.enumFrom,
      Function.update_apply]
    norm_num,
   c4_priority_le_five [⟨"a", "a", 3, ["a"]⟩] (by decide)
     ⟨"a", "a", (18/5 : ℚ), ["a"]⟩ (by
       simp [adjust_priorities_for_dependencies, computeBoosts, boostFileStep,
         boostImportsStep, pathToIndex, pathToIndexGo, List.enum, List.enumFrom,
         Function.update_apply]
       norm_num)⟩

/-- Claim C4 counterexample: a single file of priority 6 with no imports
receives no boost, so phase A leaves its priority at 6 > 5, refuting the
unconditional "every input file list" claim. -/
theorem c4_unboosted_priority_cex :
    adjust_priorities_for_dependencies [⟨"a", "a", 6, []⟩] =
        [⟨"a", "a", 6, []⟩] ∧
      ¬ ((6 : ℚ) ≤ 5) := by
  refine ⟨by decide, by norm_num⟩

/-- Claim C6: with budget 1000 and overhead 200, candidates costing
[300, 400, 500, 100] in priority order are admitted as first (running 500),
second (running 900), skip third (would be 1400), fourth (running 1000):
exactly the first, second and fourth, in that order. -/
theorem c6_budget_skip_scenario :
    prioritize_files_budget 1000 200 c6files =
      [⟨⟨"a", "a", 4, []⟩, 300⟩, ⟨⟨"b", "b", 3, []⟩, 400⟩, ⟨⟨"d", "d", 1, []⟩, 100⟩] := by
  decide

/-- Claim C2 (amended): the 2.0 cap applies to the base score only, before
any custom rule; the first matching custom-priority rule is then applied
additively without a cap, so an emitted priority is the capped base score
plus the first matching weight (and ≤ 2.0 only when no rule matches; the
unamended "caps the result at 2.0 / every emitted priority ≤ 2.0" fails,
see the counterexample). -/
theorem c2_priority_additive_after_cap (file_type : FileType)
    (relative_path : String) (custom_priorities : List CompiledPriority) :
    calculate_base_priority file_type relative_path ≤ 2 ∧
      calculate_priority file_type relative_path custom_priorities =
        calculate_base_priority file_type relative_path +
          (match custom_priorities.find? (fun pr => pr.matcher relative_path) with
           | some pr => pr.weight
           | none => 0) := by
  constructor
  · rw [calculate_base_priority.eq_def]
    exact min_le_right _ _
  · cases hfind : custom_priorities.find? (fun pr => pr.matcher relative_path) with
    | none => rw [calculate_priority.eq_def, hfind]; simp
    | some pr => rw [calculate_priority.eq_def, hfind]

/-- Claim C2 counterexample: a matching custom rule of weight 10 on the
Rust file `src/core/mod.rs` (capped base score 1.2) yields priority
1.2 + 10 = 11.2 > 2.0, refuting "caps the result at 2.0" and "every
emitted priority ≤ 2.0" (the repository's own test
`test_custom_priority_single_match_adds_weight` asserts this behaviour). -/
theorem c2_priority_cap_cex :
    calculate_priority FileType.rust "src/core/mod.rs"
        [⟨fun _ => true, 10, "src/core/mod.rs"⟩] = 56/5 ∧
      ¬ ((56/5 : ℚ) ≤ 2) := by
  have hbase : calculate_base_priority FileType.rust "src/core/mod.rs" = 6/5 := by
    have h1 : (containsSub (toLowerAscii "src/core/mod.rs") "main" ||
        containsSub (toLowerAscii "src/core/mod.rs") "index") = false := by decide
    have h2 : (containsSub (toLowerAscii "src/core/mod.rs") "lib" ||
        containsSub (toLowerAscii "src/core/mod.rs") "src") = true := by decide
    have h3 : (containsSub (toLowerAscii "src/core/mod.rs") "test" ||
        containsSub (toLowerAscii "src/core/mod.rs") "spec") = false := by decide
    have h4 : (containsSub (toLowerAscii "src/core/mod.rs") "example" ||
        containsSub (toLowerAscii "src/core/mod.rs") "sample") = false := by decide
    have h5 : parentIsRoot "src/core/mod.rs" = false := by decide
    rw [calculate_base_priority.eq_def]
    simp only [h1, h2, h3, h4, h5, Bool.false_eq_true, if_false, if_true]
    norm_num [min_def]
  constructor
  · have hfind : ([⟨fun _ => true, 10, "src/core/mod.rs"⟩] :
        List CompiledPriority).find?
          (fun pr => pr.matcher "src/core/mod.rs") =
        some ⟨fun _ => true, 10, "src/core/mod.rs"⟩ := rfl
    rw [calculate_priority, hfind, hbase]
    norm_num
  · norm_num

theorem any_or_distrib (l : List Char) (f g : Char → Bool) :
    l.any (fun c => f c || g c) = (l.any f || l.any g) := by
  induction l with
  | nil => rfl
  | cons a t ih =>
    simp only [List.any_cons, ih]
    cases f a <;> cases g a <;> simp

theorem beqCommChar (a b : Char) : (a == b) = (b == a) := by
  by_cases h : a = b
  · subst h; rfl
  · rw [beq_eq_false_iff_ne.mpr h, beq_eq_false_iff_ne.mpr (Ne.symm h)]

theorem contains_eq_any (l : List Char) (a : Char) :
    l.contains a = l.any (fun c => c == a) := by
  cases hx : l.contains a with
  | true =>
    rcases List.contains_iff_exists_mem_beq.mp (by rw [hx]) with ⟨x, hxl, hax⟩
    have hxa : a = x := eq_of_beq hax
    subst hxa
    exact (List.any_eq_true.mpr ⟨a, hxl, by simp⟩).symm
  | false =>
    cases hy : l.any (fun c => c == a) with
    | false => rfl
    | true =>
      rcases List.any_eq_true.mp hy with ⟨x, hxl, hxa⟩
      have hax : x = a := eq_of_beq hxa
      subst hax
      have hcon : l.contains x := List.contains_iff_exists_mem_beq.mpr ⟨x, hxl, by simp⟩
      rw [hx] at hcon
      cases hcon

theorem hasDotDot_eq_isInfix (l : List Char) :
    hasDotDot l = isInfixOfCh ['.', '.'] l := by
  induction l with
  | nil => rfl
  | cons a t ih =>
    cases t with
    | nil =>
      show false = ((('.' == a) && false) || false)
      rw [Bool.and_false, Bool.or_false]
    | cons b r =>
      rw [isInfixOfCh, ← ih]
      show ((a == '.' && b == '.') || hasDotDot (b :: r)) =
        (isPrefixOfCh ['.', '.'] (a :: b :: r) || hasDotDot (b :: r))
      have hp : isPrefixOfCh ['.', '.'] (a :: b :: r) = (a == '.' && b == '.') := by
        show (('.' == a) && (('.' == b) && true)) = (a == '.' && b == '.')
        rw [beqCommChar '.' a, beqCommChar '.' b, Bool.and_true]
      rw [hp]

theorem badPatternSpec_eq (p : String) :
    badPatternSpec p =
      (decide (utf8Len p > 1000) ||
        (p.data.contains '\x00' ||
          p.data.any (fun c =>
            isRustControl c || c == ' ' || c == ' ' || c == '﻿')) ||
        (startsWithCh p '/' || startsWithCh p '\\') ||
        hasDotDot p.data) := by
  rw [badPatternSpec, hasDotDot_eq_isInfix]
  rw [show (fun c => isRustControl c || c == ' ' || c == ' ' || c == '﻿')
      = (fun c => (fun x => isRustControl x || x == ' ' || x == ' ') c
          || (fun x => x == '﻿') c) from rfl]
  rw [any_or_distrib]
  rw [show (fun x => isRustControl x || x == ' ' || x == ' ')
      = (fun c => (fun x => isRustControl x || x == ' ') c
          || (fun x => x == ' ') c) from rfl]
  rw [any_or_distrib]
  rw [show (fun x : Char => isRustControl x || x == ' ')
      = (fun c => isRustControl c || (fun x => x == ' ') c) from rfl]
  rw [any_or_distrib]
  rw [contains_eq_any p.data ' ', contains_eq_any p.data ' ',
    contains_eq_any p.data '﻿']
  cases decide (utf8Len p > 1000) <;>
    cases p.data.contains '\x00' <;>
    cases p.data.any isRustControl <;>
    cases p.data.any (fun c => c == ' ') <;>
    cases p.data.any (fun c => c == ' ') <;>
    cases p.data.any (fun c => c == '﻿') <;>
    cases startsWithCh p '/' <;>
    cases startsWithCh p '\\' <;>
    cases isInfixOfCh ['.', '.'] p.data <;> rfl

/-- Claim C7 (amended): `sanitize_pattern` returns an invalid-configuration
error exactly when the pattern has byte length > 1000, contains a null
byte, a control character, U+2028, U+2029 or U+FEFF, starts with `/` or
`\`, or contains the substring `..`; every other pattern is accepted and
returned unchanged. The error describes the violated rule but does not
include the pattern text ("naming the offending pattern" fails; see the
counterexample). -/
theorem c7_sanitize_characterization (p : String) :
    ((∃ msg, sanitize_pattern p = Except.error msg) ↔ badPatternSpec p = true) ∧
      (∀ q, sanitize_pattern p = Except.ok q → q = p) := by
  rw [badPatternSpec_eq]
  by_cases h1 : utf8Len p > 1000
  · rw [sanitize_pattern.eq_def, if_pos h1]
    refine ⟨⟨fun _ => by simp [h1], fun _ => ⟨_, rfl⟩⟩, fun q hq => by cases hq⟩
  · rw [sanitize_pattern.eq_def, if_neg h1]
    have h1d : decide (utf8Len p > 1000) = false := decide_eq_false h1
    cases h2 : (p.data.contains '\x00' ||
        p.data.any (fun c =>
          isRustControl c || c == ' ' || c == ' ' || c == '﻿')) with
    | true =>
      rw [if_pos rfl]
      refine ⟨⟨fun _ => by simp, fun _ => ⟨_, rfl⟩⟩, fun q hq => by cases hq⟩
    | false =>
      rw [if_neg Bool.false_ne_true]
      cases h3 : (startsWithCh p '/' || startsWithCh p '\\') with
      | true =>
        rw [if_pos rfl]
        refine ⟨⟨fun _ => by simp, fun _ => ⟨_, rfl⟩⟩, fun q hq => by cases hq⟩
      | false =>
        rw [if_neg Bool.false_ne_true]
        cases h4 : hasDotDot p.data with
        | true =>
          rw [if_pos rfl]
          refine ⟨⟨fun _ => by simp, fun _ => ⟨_, rfl⟩⟩, fun q hq => by cases hq⟩
        | false =>
          rw [if_neg Bool.false_ne_true]
          refine ⟨⟨fun hex => ?_, fun hbad => ?_⟩,
            fun q hq => (Except.ok.inj hq).symm⟩
          · rcases hex with ⟨msg, hmsg⟩
            cases hmsg
          · rw [h1d] at hbad
            simp at hbad

/-- Witness for C7: the pattern `*.rs` violates no rule, is accepted, and
is returned unchanged. -/
theorem c7_sanitize_characterization_witness :
    sanitize_pattern "*.rs" = Except.ok "*.rs" ∧ "*.rs" = "*.rs" :=
  ⟨by decide, (c7_sanitize_characterization "*.rs").2 "*.rs" (by decide)⟩

/-- Claim C7 counterexample: `../secret/*` is rejected, but the error
message is the fixed text "Directory traversal (..) not allowed in
patterns", which does not contain (name) the offending pattern. -/
theorem c7_error_names_pattern_cex :
    sanitize_pattern "../secret/*" =
        Except.error "Directory traversal (..) not allowed in patterns" ∧
      isInfixOfCh ("../secret/*".data)
        ("Directory traversal (..) not allowed in patterns".data) = false := by
  refine ⟨by decide, by decide⟩

/-- Claim C8: the parallel walk returns an error iff some per-file error
message contains "Permission denied" or "Invalid"; the error aggregates all
critical messages (joined with ", " after the fixed prefix); otherwise the
walk succeeds, failing files are dropped, and the successfully processed
files are returned. -/
theorem c8_walk_parallel_errors (results : List WalkEntryResult) :
    ((walkErrors results).any isCriticalMsg = true →
      walk_parallel results = Except.error
        ("Critical file processing errors encountered: " ++
          String.intercalate ", " ((walkErrors results).filter isCriticalMsg))) ∧
    ((walkErrors results).any isCriticalMsg = false →
      walk_parallel results = Except.ok (walkOkFiles results)) := by
  constructor
  · intro hcrit
    rcases List.any_eq_true.mp hcrit with ⟨m, hm, hmc⟩
    have hne : (walkErrors results).isEmpty = false := by
      cases he : (walkErrors results).isEmpty with
      | false => rfl
      | true => rw [List.isEmpty_iff.mp he] at hm; cases hm
    have hcritne : ((walkErrors results).filter isCriticalMsg).isEmpty = false := by
      cases he : ((walkErrors results).filter isCriticalMsg).isEmpty with
      | false => rfl
      | true =>
        have hmem : m ∈ (walkErrors results).filter isCriticalMsg :=
          List.mem_filter.mpr ⟨hm, hmc⟩
        rw [List.isEmpty_iff.mp he] at hmem
        cases hmem
    unfold walk_parallel
    dsimp only
    rw [hne, if_neg Bool.false_ne_true, hcritne, if_neg Bool.false_ne_true]
  · intro hnone
    unfold walk_parallel
    dsimp only
    cases he : (walkErrors results).isEmpty with
    | true => rw [if_pos rfl]
    | false =>
      have hfil : (walkErrors results).filter isCriticalMsg = [] := by
        rw [List.filter_eq_nil_iff]
        intro m hm hmc
        have hany : (walkErrors results).any isCriticalMsg = true :=
          List.any_eq_true.mpr ⟨m, hm, hmc⟩
        rw [hany] at hnone
        cases hnone
      rw [if_neg Bool.false_ne_true, hfil]
      simp

/-- Witness for C8: a "Permission denied" entry aborts the walk with the
aggregated message; a non-critical failure is dropped and the processed
file is returned. -/
theorem c8_walk_parallel_errors_witness :
    walk_parallel [WalkEntryResult.err "Permission denied: /x",
        WalkEntryResult.ok (some ⟨"x", "x", 1, []⟩)] =
      Except.error "Critical file processing errors encountered: Permission denied: /x" ∧
    walk_parallel [WalkEntryResult.err "disk error",
        WalkEntryResult.ok (some ⟨"x", "x", 1, []⟩)] =
      Except.ok [⟨"x", "x", 1, []⟩] := by
  constructor
  · have h := (c8_walk_parallel_errors [WalkEntryResult.err "Permission denied: /x",
      WalkEntryResult.ok (some ⟨"x", "x", 1, []⟩)]).1 (by decide)
    rw [h]
    decide
  · have h := (c8_walk_parallel_errors [WalkEntryResult.err "disk error",
      WalkEntryResult.ok (some ⟨"x", "x", 1, []⟩)]).2 (by decide)
    rw [h]
    decide

theorem child_context_isSome_iff (c : SemanticContext) (file : String) :
    (c.child_context file).isSome = true ↔
      (c.current_depth < c.max_depth ∧ file ∉ c.visited_files) := by
  rw [SemanticContext.child_context]
  by_cases hcond : (c.at_max_depth || decide (file ∈ c.visited_files)) = true
  · rw [if_pos hcond]
    simp only [Option.isSome_none, Bool.false_eq_true, false_iff]
    intro ⟨hde, hvis⟩
    rcases Bool.or_eq_true_iff.mp hcond with hmax | hmem
    · exact absurd (of_decide_eq_true hmax) (by omega)
    · exact hvis (of_decide_eq_true hmem)
  · rw [if_neg hcond]
    simp only [Option.isSome_some, true_iff]
    rw [Bool.or_eq_true_iff] at hcond
    push_neg at hcond
    rcases hcond with ⟨hmax, hmem⟩
    constructor
    · have := of_decide_eq_false (Bool.not_eq_true _ |>.mp hmax)
      simp only [SemanticContext.at_max_depth] at hmax
      have h2 : ¬ (c.current_depth ≥ c.max_depth) :=
        of_decide_eq_false (Bool.not_eq_true _ |>.mp hmax)
      omega
    · exact of_decide_eq_false (Bool.not_eq_true _ |>.mp hmem)

/-- Claim C9: `child_context` returns `Some` iff the depth has room and the
target is unvisited, and the child has the target as current file, depth
incremented by one, the target added to the visited set, and the base
directory and max depth unchanged; otherwise it returns `None`. -/
theorem c9_child_context_spec (c : SemanticContext) (file : String) :
    (c.current_depth < c.max_depth ∧ file ∉ c.visited_files →
      c.child_context file = some { c with
        current_file := file
        current_depth := c.current_depth + 1
        visited_files := insert file c.visited_files }) ∧
    (¬ (c.current_depth < c.max_depth ∧ file ∉ c.visited_files) →
      c.child_context file = none) ∧
    ((c.child_context file).isSome = true ↔
      (c.current_depth < c.max_depth ∧ file ∉ c.visited_files)) := by
  refine ⟨fun h => ?_, fun h => ?_, child_context_isSome_iff c file⟩
  · have hs := (child_context_isSome_iff c file).mpr h
    rw [SemanticContext.child_context] at hs ⊢
    by_cases hcond : (c.at_max_depth || decide (file ∈ c.visited_files)) = true
    · rw [if_pos hcond] at hs; cases hs
    · rw [if_neg hcond]
  · cases hval : c.child_context file with
    | none => rfl
    | some c' =>
      have : (c.child_context file).isSome = true := by rw [hval]; rfl
      exact absurd ((child_context_isSome_iff c file).mp this) h

/-- Witness for C9: from a fresh context at depth 0 with max depth 3,
deriving a child for `b` succeeds with the expected fields. -/
theorem c9_child_context_spec_witness :
    (SemanticContext.new "a" "r" 3).child_context "b" =
        some ⟨"b", "r", 1, 3, insert "b" ∅⟩ ∧
      ((SemanticContext.new "a" "r" 3).child_context "a").isSome = true :=
  ⟨(c9_child_context_spec (SemanticContext.new "a" "r" 3) "b").1
      ⟨by decide, by decide⟩,
   (c9_child_context_spec (SemanticContext.new "a" "r" 3) "a").2.2.mpr
      ⟨by decide, by decide⟩⟩

theorem chain_fold_none (targets : List String) :
    targets.foldl (fun oc file => oc.bind (fun c => c.child_context file))
      (none : Option SemanticContext) = none := by
  induction targets with
  | nil => rfl
  | cons t ts ih => simpa using ih

theorem chain_go (targets : List String) :
    ∀ (c0 c : SemanticContext),
      targets.foldl (fun oc file => oc.bind (fun c => c.child_context file))
        (some c0) = some c →
      c0.current_depth ≤ c0.max_depth →
      (c.visited_files = c0.visited_files ∪ targets.toFinset ∧
       c.current_depth = c0.current_depth + targets.length ∧
       c.max_depth = c0.max_depth ∧
       c.base_dir = c0.base_dir ∧
       c.current_depth ≤ c.max_depth) := by
  induction targets with
  | nil =>
    intro c0 c h hd
    rcases Option.some.inj h with rfl
    simpa using hd
  | cons t ts ih =>
    intro c0 c h hd
    rw [List.foldl_cons] at h
    cases hchild : (some c0).bind (fun x => x.child_context t) with
    | none => rw [hchild, chain_fold_none] at h; cases h
    | some c1 =>
      rw [hchild] at h
      have hc : c0.child_context t = some c1 := by simpa using hchild
      rw [SemanticContext.child_context] at hc
      by_cases hcond : (c0.at_max_depth || decide (t ∈ c0.visited_files)) = true
      · rw [if_pos hcond] at hc; cases hc
      · rw [if_neg hcond] at hc
        rcases Option.some.inj hc with rfl
        have hmax : ¬ (c0.current_depth ≥ c0.max_depth) := by
          rw [Bool.or_eq_true_iff] at hcond
          push_neg at hcond
          exact of_decide_eq_false (Bool.not_eq_true _ |>.mp
            (by simpa [SemanticContext.at_max_depth] using hcond.1))
        rcases ih _ c h (by simp; omega) with ⟨hv, hdep, hm, hb, hle⟩
        refine ⟨?_, ?_, by simpa using hm, by simpa using hb, hle⟩
        · rw [hv]
          simp only [List.toFinset_cons, Finset.insert_union, Finset.union_insert]
        · rw [hdep]
          simp only [List.length_cons]
          omega

/-- Claim C10 (amended): a fresh context has an empty visited set, and the
visited set of a context reached by a derivation chain is exactly the set
of the chain's targets, with depth equal to the chain length, bounded by
`max_depth`; hence `child_context(seed)` returns `Some` iff the depth has
room and no derivation in the chain targeted the seed itself. The first
derivation back to the seed is therefore admitted, but afterwards the seed
IS in the visited set, so a repeated cycle back to the seed is stopped by
the visited set, not only by the depth limit (the unamended "never contains
the seed / stopped only by the depth limit" fails; see the
counterexample). -/
theorem c10_chain_visited_targets (seed base_dir : String) (max_depth : ℕ)
    (targets : List String) (c : SemanticContext)
    (h : chainContext seed base_dir max_depth targets = some c) :
    (SemanticContext.new seed base_dir max_depth).visited_files = ∅ ∧
    c.visited_files = targets.toFinset ∧
    c.current_depth = targets.length ∧
    targets.length ≤ max_depth ∧
    ((c.child_context seed).isSome = true ↔
      (c.current_depth < max_depth ∧ seed ∉ targets)) := by
  rcases chain_go targets (SemanticContext.new seed base_dir max_depth) c h
      (by simp [SemanticContext.new]) with ⟨hv, hdep, hm, _, hle⟩
  have hvis : c.visited_files = targets.toFinset := by
    rw [hv]; simp [SemanticContext.new]
  have hdep' : c.current_depth = targets.length := by
    rw [hdep]; simp [SemanticContext.new]
  have hmd : c.max_depth = max_depth := by rw [hm]; rfl
  refine ⟨rfl, hvis, hdep', by omega, ?_⟩
  rw [child_context_isSome_iff c seed, hvis, hmd]
  constructor
  · rintro ⟨h1, h2⟩; exact ⟨h1, fun hmem => h2 (List.mem_toFinset.mpr hmem)⟩
  · rintro ⟨h1, h2⟩; exact ⟨h1, fun hmem => h2 (List.mem_toFinset.mp hmem)⟩

/-- Witness for C10: the chain seed → a → b reaches a context whose visited
set is `{a, b}` at depth 2, and from there a derivation back to the seed
succeeds. -/
theorem c10_chain_visited_targets_witness :
    chainContext "s" "r" 3 ["a", "b"] =
        some ⟨"b", "r", 2, 3, insert "b" (insert "a" ∅)⟩ ∧
      (SemanticContext.child_context
        ⟨"b", "r", 2, 3, insert "b" (insert "a" ∅)⟩ "s").isSome = true := by
  refine ⟨by decide, ?_⟩
  have h := c10_chain_visited_targets "s" "r" 3 ["a", "b"]
    ⟨"b", "r", 2, 3, insert "b" (insert "a" ∅)⟩ (by decide)
  exact h.2.2.2.2.mpr ⟨by decide, by decide⟩

/-- Claim C10 counterexample: from the fresh seed context (max depth 3) the
derivation targeting the seed itself succeeds and puts the seed into the
visited set; the resulting context has depth 1 < 3, yet
`child_context(seed)` returns `None` — the repeat visit is stopped by the
visited set, not by the depth limit, and the visited set of this reachable
context does contain the seed. -/
theorem c10_visited_blocks_seed_cex :
    (SemanticContext.new "s" "r" 3).child_context "s" =
        some ⟨"s", "r", 1, 3, insert "s" ∅⟩ ∧
      (1 : ℕ) < 3 ∧
      "s" ∈ (insert "s" (∅ : Finset String)) ∧
      SemanticContext.child_context ⟨"s", "r", 1, 3, insert "s" ∅⟩ "s" = none := by
  refine ⟨by decide, by decide, by decide, by decide⟩

theorem insertOrd_perm (le : α → α → Bool) (a : α) (l : List α) :
    List.Perm (insertOrd le a l) (a :: l) := by
  induction l with
  | nil => exact List.Perm.refl _
  | cons b t ih =>
    rw [insertOrd]
    by_cases h : le a b = true
    · rw [if_pos h]
    · rw [if_neg h]
      exact (ih.cons b).trans (List.Perm.swap a b t)

theorem sortOrd_perm (le : α → α → Bool) (l : List α) : List.Perm (sortOrd le l) l := by
  induction l with
  | nil => exact List.Perm.refl _
  | cons a t ih => exact (insertOrd_perm le a (sortOrd le t)).trans (ih.cons a)

theorem insertOrd_pairwise (P : α → Prop) (le : α → α → Bool)
    (total : ∀ x y, P x → P y → le x y = true ∨ le y x = true)
    (htrans : ∀ x y z, P x → P y → P z →
      le x y = true → le y z = true → le x z = true) :
    ∀ (l : List α) (a : α), P a → (∀ x ∈ l, P x) →
      l.Pairwise (fun x y => le x y = true) →
      (insertOrd le a l).Pairwise (fun x y => le x y = true) := by
  intro l
  induction l with
  | nil => intro a _ _ _; simp [insertOrd]
  | cons b t ih =>
    intro a hPa hPl hp
    rcases List.pairwise_cons.mp hp with ⟨hb, ht⟩
    rw [insertOrd]
    by_cases hab : le a b = true
    · rw [if_pos hab]
      refine List.pairwise_cons.mpr ⟨?_, hp⟩
      intro x hx
      rcases List.mem_cons.mp hx with rfl | hxt
      · exact hab
      · exact htrans a b x hPa (hPl b (List.mem_cons_self b t))
          (hPl x (List.mem_cons_of_mem b hxt)) hab (hb x hxt)
    · rw [if_neg hab]
      have hba : le b a = true := by
        rcases total a b hPa (hPl b (List.mem_cons_self b t)) with h | h
        · exact absurd h hab
        · exact h
      refine List.pairwise_cons.mpr
        ⟨?_, ih a hPa (fun x hx => hPl x (List.mem_cons_of_mem b hx)) ht⟩
      intro x hx
      have hx' : x ∈ a :: t := (insertOrd_perm le a t).mem_iff.mp hx
      rcases List.mem_cons.mp hx' with rfl | hxt
      · exact hba
      · exact hb x hxt

theorem sortOrd_pairwise (P : α → Prop) (le : α → α → Bool)
    (total : ∀ x y, P x → P y → le x y = true ∨ le y x = true)
    (htrans : ∀ x y z, P x → P y → P z →
      le x y = true → le y z = true → le x z = true) :
    ∀ (l : List α), (∀ x ∈ l, P x) →
      (sortOrd le l).Pairwise (fun x y => le x y = true) := by
  intro l
  induction l with
  | nil => intro _; simp [sortOrd]
  | cons a t ih =>
    intro hP
    rw [sortOrd]
    refine insertOrd_pairwise P le total htrans (sortOrd le t) a
      (hP a (List.mem_cons_self a t)) ?_
      (ih (fun x hx => hP x (List.mem_cons_of_mem a hx)))
    intro x hx
    exact hP x (List.mem_cons_of_mem a ((sortOrd_perm le t).mem_iff.mp hx))

theorem qCmp_lt_iff (a b : ℚ) : qCmp a b = Ordering.lt ↔ a < b := by
  unfold qCmp
  split_ifs with h1 h2
  · exact iff_of_true rfl h1
  · exact iff_of_false (by simp) h1
  · exact iff_of_false (by simp) h1

theorem qCmp_gt_iff (a b : ℚ) : qCmp a b = Ordering.gt ↔ b < a := by
  unfold qCmp
  split_ifs with h1 h2
  · exact iff_of_false (by simp) (fun h => absurd h1 (not_lt_of_gt h))
  · exact iff_of_true rfl h2
  · exact iff_of_false (by simp) h2

theorem qCmp_eq_iff (a b : ℚ) : qCmp a b = Ordering.eq ↔ a = b := by
  unfold qCmp
  split_ifs with h1 h2
  · exact iff_of_false (by simp) (ne_of_lt h1)
  · exact iff_of_false (by simp) (fun he => lt_irrefl a (he ▸ h2))
  · exact iff_of_true rfl (le_antisymm (not_lt.mp h2) (not_lt.mp h1))

theorem strCmp_gt_iff (a b : String) : strCmp a b = Ordering.gt ↔ b < a := by
  unfold strCmp
  split_ifs with h1 h2
  · exact iff_of_false (by simp) (fun h => absurd h1 (not_lt_of_gt h))
  · exact iff_of_true rfl h2
  · exact iff_of_false (by simp) h2

theorem pcmp_none_iff (x y : F32) :
    F32.pcmp x y = none ↔ x = F32.nan ∨ y = F32.nan := by
  cases x <;> cases y <;> simp [F32.pcmp]

theorem pcmp_eq_iff (x y : F32) (hx : x ≠ F32.nan) (hy : y ≠ F32.nan) :
    F32.pcmp x y = some Ordering.eq ↔ x = y := by
  cases x <;> cases y <;> simp_all [F32.pcmp, qCmp_eq_iff]

theorem pcmp_swap_gt (x y : F32) :
    F32.pcmp x y = some Ordering.lt → F32.pcmp y x = some Ordering.gt := by
  cases x <;> cases y <;> simp_all [F32.pcmp, qCmp_lt_iff, qCmp_gt_iff]

theorem pcmp_lt_trans (x y z : F32) (hx : x ≠ F32.nan) (hy : y ≠ F32.nan)
    (hz : z ≠ F32.nan) :
    F32.pcmp x y = some Ordering.lt → F32.pcmp y z = some Ordering.lt →
      F32.pcmp x z = some Ordering.lt := by
  cases x <;> cases y <;> cases z <;>
    simp_all [F32.pcmp, qCmp_lt_iff] <;> intro h1 h2 <;> linarith

theorem fileLe_iff (a b : FileR) (ha : a.priority ≠ F32.nan)
    (hb : b.priority ≠ F32.nan) :
    notGT (fileCmpR a b) = true ↔
      (F32.pcmp b.priority a.priority = some Ordering.lt ∨
        (a.priority = b.priority ∧ a.relative_path ≤ b.relative_path)) := by
  unfold fileCmpR
  cases hp : F32.pcmp b.priority a.priority with
  | none => exact absurd ((pcmp_none_iff _ _).mp hp) (by simp [ha, hb])
  | some o =>
    cases o with
    | lt => exact iff_of_true rfl (Or.inl rfl)
    | eq =>
      have heq : b.priority = a.priority := (pcmp_eq_iff _ _ hb ha).mp hp
      constructor
      · intro h
        refine Or.inr ⟨heq.symm, ?_⟩
        by_contra hgt
        have hlt : b.relative_path < a.relative_path := not_le.mp hgt
        have : strCmp a.relative_path b.relative_path = Ordering.gt :=
          (strCmp_gt_iff _ _).mpr hlt
        rw [show ((some Ordering.eq).getD Ordering.eq).then
            (strCmp a.relative_path b.relative_path) =
            strCmp a.relative_path b.relative_path from rfl, this] at h
        cases h
      · rintro (h | ⟨_, hple⟩)
        · cases h
        · show notGT (Ordering.eq.then (strCmp a.relative_path b.relative_path)) = true
          have hne : strCmp a.relative_path b.relative_path ≠ Ordering.gt := by
            intro hgt
            exact absurd hple (not_le.mpr ((strCmp_gt_iff _ _).mp hgt))
          cases hsc : strCmp a.relative_path b.relative_path
          · rfl
          · rfl
          · exact absurd hsc hne
    | gt =>
      constructor
      · intro h; cases h
      · rintro (h | ⟨heq, _⟩)
        · cases h
        · have := (pcmp_eq_iff b.priority a.priority hb ha).mpr heq.symm
          rw [hp] at this
          cases this

theorem notGT_or_swap (o : Ordering) : notGT o = true ∨ notGT o.swap = true := by
  cases o <;> simp [notGT, Ordering.swap]

theorem qCmp_swap (a b : ℚ) : qCmp b a = (qCmp a b).swap := by
  rcases lt_trichotomy a b with h | rfl | h
  · rw [(qCmp_lt_iff a b).mpr h, (qCmp_gt_iff b a).mpr h]; rfl
  · rw [(qCmp_eq_iff a a).mpr rfl]; rfl
  · rw [(qCmp_gt_iff a b).mpr h, (qCmp_lt_iff b a).mpr h]; rfl

theorem strCmp_swap (a b : String) : strCmp b a = (strCmp a b).swap := by
  rcases lt_trichotomy a b with h | rfl | h
  · rw [show strCmp a b = Ordering.lt from by unfold strCmp; rw [if_pos h],
      show strCmp b a = Ordering.gt from (strCmp_gt_iff b a).mpr h]
    rfl
  · rw [show strCmp a a = Ordering.eq from by
      unfold strCmp; rw [if_neg (lt_irrefl a), if_neg (lt_irrefl a)]]
    rfl
  · rw [(strCmp_gt_iff a b).mpr h,
      show strCmp b a = Ordering.lt from by unfold strCmp; rw [if_pos h]]
    rfl

theorem pcmp_swap (x y : F32) :
    F32.pcmp y x = (F32.pcmp x y).map Ordering.swap := by
  cases x <;> cases y <;> try rfl
  case finite.finite a b =>
    show some (qCmp b a) = some ((qCmp a b).swap)
    rw [qCmp_swap]

theorem then_swap (o p : Ordering) : (o.then p).swap = o.swap.then p.swap := by
  cases o <;> cases p <;> rfl

theorem fileCmpR_swap (a b : FileR) : fileCmpR b a = (fileCmpR a b).swap := by
  unfold fileCmpR
  rw [pcmp_swap b.priority a.priority, strCmp_swap a.relative_path b.relative_path,
    then_swap]
  congr 1
  cases F32.pcmp b.priority a.priority <;> rfl

theorem fileLe_total (a b : FileR) :
    notGT (fileCmpR a b) = true ∨ notGT (fileCmpR b a) = true := by
  rw [fileCmpR_swap a b]
  exact notGT_or_swap (fileCmpR a b)

theorem fileLe_trans (x y z : FileR) (hx : x.priority ≠ F32.nan)
    (hy : y.priority ≠ F32.nan) (hz : z.priority ≠ F32.nan) :
    notGT (fileCmpR x y) = true → notGT (fileCmpR y z) = true →
      notGT (fileCmpR x z) = true := by
  rw [fileLe_iff x y hx hy, fileLe_iff y z hy hz, fileLe_iff x z hx hz]
  rintro (h1 | ⟨e1, p1⟩) (h2 | ⟨e2, p2⟩)
  · exact Or.inl (pcmp_lt_trans z.priority y.priority x.priority hz hy hx h2 h1)
  · exact Or.inl (by rw [← e2]; exact h1)
  · exact Or.inl (by rw [e1]; exact h2)
  · exact Or.inr ⟨e1.trans e2, le_trans p1 p2⟩

/-- Claim C5 (amended): for every input whose priorities are all
well-ordered (no NaN; infinities are allowed and compare by the IEEE
order, they do NOT compare as equal) and whose relative paths are pairwise
distinct, every pair (a, b) with a preceding b in the sorted output
satisfies priority(a) > priority(b), or priority(a) = priority(b) and a's
relative path is lexicographically smaller. Only comparisons involving NaN
fall through to the path tie-break (`partial_cmp` returns `None` exactly
for NaN); with NaN present the comparator is not transitive and the claim's
pair property can fail. -/
theorem c5_output_sorted (l : List FileR)
    (hnan : ∀ f ∈ l, f.priority ≠ F32.nan)
    (hpath : l.Pairwise (fun a b => a.relative_path ≠ b.relative_path)) :
    (sortFilesR l).Pairwise claimPairRel := by
  have hsorted : (sortFilesR l).Pairwise
      (fun a b => notGT (fileCmpR a b) = true) := by
    refine sortOrd_pairwise (fun f => f.priority ≠ F32.nan)
      (fun a b => notGT (fileCmpR a b))
      (fun x y _ _ => fileLe_total x y)
      (fun x y z hx hy hz => fileLe_trans x y z hx hy hz) l hnan
  have hperm : List.Perm (sortFilesR l) l := sortOrd_perm _ l
  have hpath' : (sortFilesR l).Pairwise
      (fun a b => a.relative_path ≠ b.relative_path) :=
    (hperm.pairwise_iff (fun h => Ne.symm h)).mpr hpath
  refine List.Pairwise.imp_of_mem ?_ (hsorted.and hpath')
  intro a b ha hb hab
  rcases hab with ⟨hle, hne⟩
  have ha' : a.priority ≠ F32.nan := hnan a (hperm.mem_iff.mp ha)
  have hb' : b.priority ≠ F32.nan := hnan b (hperm.mem_iff.mp hb)
  rcases (fileLe_iff a b ha' hb').mp hle with h | ⟨heq, hpe⟩
  · exact Or.inl (pcmp_swap_gt _ _ h)
  · exact Or.inr ⟨heq, lt_of_le_of_ne hpe hne⟩

/-- Witness for C5: on NaN-free input with distinct paths the sorted output
satisfies the claimed pairwise relation. -/
theorem c5_output_sorted_witness :
    (sortFilesR [⟨F32.finite 1, "a"⟩, ⟨F32.finite 2, "b"⟩]).Pairwise claimPairRel :=
  c5_output_sorted [⟨F32.finite 1, "a"⟩, ⟨F32.finite 2, "b"⟩]
    (by decide) (by decide)

/-- Claim C5 counterexample: with a positive-infinity priority, the code's
comparator sorts infinity first (`partial_cmp` orders infinities; it does
not treat them as equal), while the claim's "non-finite priorities compare
as equal and fall through to the path tie-break" predicts the opposite
order for paths "a" < "b". -/
theorem c5_nonfinite_sort_cex :
    (sortFilesR [⟨F32.finite 1, "a"⟩, ⟨F32.posInf, "b"⟩]).map
        (fun f => f.relative_path) = ["b", "a"] ∧
      (specSortFilesR [⟨F32.finite 1, "a"⟩, ⟨F32.posInf, "b"⟩]).map
        (fun f => f.relative_path) = ["a", "b"] := by
  have hab : ("a" : String) < "b" := String.lt_iff_toList_lt.mpr (by decide)
  have hcmp : strCmp "a" "b" = Ordering.lt := by rw [strCmp, if_pos hab]
  have hle : notGT (specNonfiniteEqCmp ⟨F32.finite 1, "a"⟩ ⟨F32.posInf, "b"⟩) = true := by
    show notGT (strCmp "a" "b") = true
    rw [hcmp]
    rfl
  refine ⟨by decide, ?_⟩
  simp only [specSortFilesR, sortOrd, insertOrd, hle, if_true, List.map_cons,
    List.map_nil]
